import Mathlib

/-!
Verification of the mmap ledger (src/lib.rs): a fixed-capacity ledger of
tagged, non-overlapping, page-granular address regions with an
insert-and-merge operation and a free-space search.

Addresses (`Address<usize, Page>`) and offsets (`Offset<usize, Page>`) are
modelled as `Nat`.  The two subtractions inside `Ledger::find_free` are the
only fallible arithmetic in the source (usize subtraction, which aborts on
underflow in checked builds); they are modelled by guards that return `none`
when the subtraction would underflow.  `Ledger::insert` contains no
arithmetic that can fail and is modelled as a total function.
-/

namespace MmLedger

/-- A half-open line over page-granular addresses (lset `Line`).  The Rust
field `end` is called `stop` here because `end` is reserved in Lean. -/
structure Line' where
  start : Nat
  stop : Nat
deriving DecidableEq

/-- Intersection of two half-open lines (lset `Line::intersection`, the
external interval primitive assumed correct by the spec): `some` exactly when
the half-open intervals have a nonempty intersection. -/
def Line'.intersection (a b : Line') : Option Line' :=
  let s := max a.start b.start
  let e := min a.stop b.stop
  if s < e then some ⟨s, e⟩ else none

/-- Emptiness test on a line (lset `Empty`), used only by the defensive
branch of the sort comparator. -/
def Line'.isEmpty (a : Line') : Bool := a.start == a.stop

/-- A ledger region: limits plus an optional fill value (src/lib.rs
`Region<V>`). -/
structure Region (V : Type) where
  limits : Line'
  value : Option V
deriving DecidableEq

/-- Ledger error conditions (src/lib.rs `Error`). -/
inductive Error where
  | OutOfCapacity
  | OutOfSpace
  | Overlap
  | InvalidRegion
deriving DecidableEq

/-- Ledger state (src/lib.rs `Ledger<V, N>`): overall limits, the active
regions of the truncated slice `regions[..len]` in storage order, and the
slot capacity `N`.  The `N - len` unused sentinel slots are not represented:
every operation of the source reads and writes only the truncated slice. -/
structure Ledger (V : Type) where
  limits : Line'
  regions : List (Region V)
  cap : Nat
deriving DecidableEq

/-- `Ledger::new`. -/
def Ledger.new {V : Type} (limits : Line') (cap : Nat) : Ledger V :=
  ⟨limits, [], cap⟩

/-- The comparator closure of `Ledger::sort` (`sort_unstable_by`). -/
def regionCmp {V : Type} (l r : Region V) : Ordering :=
  if l.limits = r.limits then .eq
  else if l.limits.isEmpty then .gt
  else if r.limits.isEmpty then .lt
  else compare l.limits.start r.limits.start

/-- Ordered insertion of `x` before the first element comparing greater
under `regionCmp`. -/
def insertBy {V : Type} (x : Region V) : List (Region V) → List (Region V)
  | [] => [x]
  | y :: ys => if regionCmp x y ≠ Ordering.gt then x :: y :: ys else y :: insertBy x ys

/-- `Ledger::sort`: sorting of the active slice by `regionCmp`.  On every
slice the ledger actually sorts, the comparator is tie-free (the active
regions are pairwise disjoint and nonempty), so any comparison sort computes
the same list as the source's `sort_unstable_by`; insertion sort is used
here. -/
def sortRegions {V : Type} : List (Region V) → List (Region V)
  | [] => []
  | x :: xs => insertBy x (sortRegions xs)

/-- Result of the merge-and-overlap scan of `Ledger::insert`:
the loop aborts with `Overlap`, returns a merged region list, or falls
through with the regions unchanged. -/
inductive Scan (V : Type) where
  | overlap : Scan V
  | merged : List (Region V) → Scan V
  | nomerge : Scan V

/-- The `while let Some(prev) = iter.next()` loop of `Ledger::insert` over a
peekable iterator: at each step it overlap-checks `prev` and the peeked
`next`, then tries the merge-previous and merge-next rules.  The first
element of the list is only ever a `prev`, never a peeked `next`. -/
def mergeLoop {V : Type} [DecidableEq V] (region : Region V) :
    List (Region V) → Scan V
  | [] => .nomerge
  | [prev] =>
    if (prev.limits.intersection region.limits).isSome then .overlap
    else if prev.value = region.value ∧ prev.limits.stop = region.limits.start then
      .merged [⟨⟨prev.limits.start, region.limits.stop⟩, prev.value⟩]
    else .nomerge
  | prev :: next :: rest =>
    if (prev.limits.intersection region.limits).isSome then .overlap
    else if (next.limits.intersection region.limits).isSome then .overlap
    else if prev.value = region.value ∧ prev.limits.stop = region.limits.start then
      .merged (⟨⟨prev.limits.start, region.limits.stop⟩, prev.value⟩ :: next :: rest)
    else if next.value = region.value ∧ next.limits.start = region.limits.stop then
      .merged (prev :: ⟨⟨region.limits.start, next.limits.stop⟩, next.value⟩ :: rest)
    else
      match mergeLoop region (next :: rest) with
      | .merged rs => .merged (prev :: rs)
      | other => other

/-- `Ledger::insert`.  The state is threaded explicitly: the result pairs the
returned `Result<(), Error>` with the ledger after the call. -/
def Ledger.insert {V : Type} [DecidableEq V] (st : Ledger V) (region : Region V) :
    Except Error Unit × Ledger V :=
  if region.limits.stop ≤ region.limits.start then (.error .InvalidRegion, st)
  else if region.limits.start < st.limits.start ∨ st.limits.stop < region.limits.stop then
    (.error .InvalidRegion, st)
  else
    match mergeLoop region st.regions with
    | .overlap => (.error .Overlap, st)
    | .merged rs => (.ok (), { st with regions := rs })
    | .nomerge =>
      if st.regions.length < st.cap then
        (.ok (), { st with regions := sortRegions (st.regions ++ [region]) })
      else (.error .OutOfCapacity, st)

/-- Consecutive pairs of a list of lines (`slice::windows(2)`). -/
def linePairs : List Line' → List (Line' × Line')
  | a :: b :: rest => (a, b) :: linePairs (b :: rest)
  | _ => []

/-- The window sequence scanned by `Ledger::find_free`: the chained windows
of `[start_marker, first_region_or_end]`, of the active regions, and of
`[last_region_or_start, end_marker]`.  Only the limits of each window element
are ever read, so windows are represented as pairs of lines. -/
def Ledger.windows {V : Type} (st : Ledger V) : List (Line' × Line') :=
  let s : Line' := ⟨st.limits.start, st.limits.start⟩
  let e : Line' := ⟨st.limits.stop, st.limits.stop⟩
  let ls := st.regions.map (fun r => r.limits)
  (s, ls.headD e) :: (linePairs ls ++ [(ls.getLastD s, e)])

/-- The forward scan of `Ledger::find_free` (`front = true`).  The outer
`none` models the abort of the usize subtraction `r.limits.end -
l.limits.start` on underflow; otherwise the ordinary `Result` is returned. -/
def scanFront (len : Nat) : List (Line' × Line') → Option (Except Error Line')
  | [] => some (.error .OutOfSpace)
  | (l, r) :: ws =>
    if r.stop < l.start then none
    else if len < r.stop - l.start then some (.ok ⟨l.stop, l.stop + len⟩)
    else scanFront len ws

/-- The backward scan of `Ledger::find_free` (`front = false`), applied to
the reversed window list.  The outer `none` models the abort of either usize
subtraction (`r.limits.end - l.limits.start`, then `r.limits.start - len`)
on underflow. -/
def scanBack (len : Nat) : List (Line' × Line') → Option (Except Error Line')
  | [] => some (.error .OutOfSpace)
  | (l, r) :: ws =>
    if r.stop < l.start then none
    else if len < r.stop - l.start then
      if r.start < len then none
      else some (.ok ⟨r.start - len, r.start⟩)
    else scanBack len ws

/-- `Ledger::find_free`. -/
def Ledger.findFree {V : Type} (st : Ledger V) (len : Nat) (front : Bool) :
    Option (Except Error Line') :=
  if front then scanFront len st.windows
  else scanBack len st.windows.reverse

/-- Modelled from the spec (§4.3 wording), for comparison with
`Ledger.findFree`: the windows are the consecutive pairs of the single
sequence formed by a zero-width marker at the lower limit, the active
regions in order, and a zero-width marker at the upper limit; acceptance and
results are as in the scans.  The same external numeric domain (guarded
usize subtraction) is used. -/
def findFreeSpec {V : Type} (st : Ledger V) (len : Nat) (front : Bool) :
    Option (Except Error Line') :=
  if front then
    scanFront len (linePairs (⟨st.limits.start, st.limits.start⟩ ::
      (st.regions.map (fun r => r.limits) ++ [⟨st.limits.stop, st.limits.stop⟩])))
  else
    scanBack len (linePairs (⟨st.limits.start, st.limits.start⟩ ::
      (st.regions.map (fun r => r.limits) ++ [⟨st.limits.stop, st.limits.stop⟩]))).reverse

/-- The inductive invariant of a ledger: well-formed limits, the active
count within capacity, every active region nonempty and inside the limits,
and the active regions strictly ordered end-before-start (which packages
both sortedness and pairwise disjointness). -/
def Inv {V : Type} (st : Ledger V) : Prop :=
  st.limits.start ≤ st.limits.stop ∧
  st.regions.length ≤ st.cap ∧
  (∀ r ∈ st.regions,
    r.limits.start < r.limits.stop ∧
    st.limits.start ≤ r.limits.start ∧ r.limits.stop ≤ st.limits.stop) ∧
  st.regions.Pairwise (fun a b => a.limits.stop ≤ b.limits.start)

/-- Ledger states reachable from construction (with a well-formed overall
window, as §4.1 of the spec requires) by any sequence of `insert` calls.
Failed calls leave the state unchanged, so this is the same set of states as
reachability by successful calls only. -/
inductive Reachable {V : Type} [DecidableEq V] : Ledger V → Prop where
  | new (limits : Line') (cap : Nat) (h : limits.start ≤ limits.stop) :
      Reachable (Ledger.new limits cap)
  | step (st : Ledger V) (region : Region V) (h : Reachable st) :
      Reachable (st.insert region).2

/-- Sanity check mirroring the source test `insert` (addresses in page
units: `0x1000` is page 1). -/
theorem test_insert :
    ((Ledger.new ⟨1, 16⟩ 1 : Ledger Unit).insert ⟨⟨14, 16⟩, none⟩).2.regions
      = [⟨⟨14, 16⟩, none⟩] := rfl

/-- Sanity check mirroring the source test `find_free_front`. -/
theorem test_find_free_front :
    (Ledger.new ⟨1, 16⟩ 8 : Ledger Unit).findFree 2 true = some (.ok ⟨1, 3⟩) ∧
    ((Ledger.new ⟨1, 16⟩ 8 : Ledger Unit).insert ⟨⟨1, 3⟩, none⟩).2.findFree 2 true
      = some (.ok ⟨3, 5⟩) := ⟨rfl, rfl⟩

/-- Sanity check mirroring the source test `find_free_back`. -/
theorem test_find_free_back :
    (Ledger.new ⟨1, 16⟩ 8 : Ledger Unit).findFree 2 false = some (.ok ⟨14, 16⟩) ∧
    ((Ledger.new ⟨1, 16⟩ 8 : Ledger Unit).insert ⟨⟨14, 16⟩, none⟩).2.findFree 2 false
      = some (.ok ⟨12, 14⟩) := ⟨rfl, rfl⟩

/-- Sanity check mirroring the source test `merge_after`. -/
theorem test_merge_after :
    (((Ledger.new ⟨1, 16⟩ 8 : Ledger Unit).insert ⟨⟨4, 5⟩, none⟩).2.insert
        ⟨⟨8, 9⟩, none⟩).2.insert ⟨⟨5, 6⟩, none⟩
      = (.ok (), ⟨⟨1, 16⟩, [⟨⟨4, 6⟩, none⟩, ⟨⟨8, 9⟩, none⟩], 8⟩) := rfl

/-- Sanity check mirroring the source test `merge_before`. -/
theorem test_merge_before :
    (((Ledger.new ⟨1, 16⟩ 8 : Ledger Unit).insert ⟨⟨4, 5⟩, none⟩).2.insert
        ⟨⟨8, 9⟩, none⟩).2.insert ⟨⟨7, 8⟩, none⟩
      = (.ok (), ⟨⟨1, 16⟩, [⟨⟨4, 5⟩, none⟩, ⟨⟨7, 9⟩, none⟩], 8⟩) := rfl

/-- Characterization of a nonempty intersection. -/
theorem inter_isSome (a b : Line') :
    (a.intersection b).isSome ↔ max a.start b.start < min a.stop b.stop := by
  simp only [Line'.intersection]
  split <;> simp_all

/-- Characterization of an empty intersection. -/
theorem inter_none (a b : Line') :
    a.intersection b = none ↔ min a.stop b.stop ≤ max a.start b.start := by
  simp only [Line'.intersection]
  split
  · simp_all
  · simp_all
    omega

/-- Intersection is symmetric. -/
theorem inter_comm (a b : Line') : a.intersection b = b.intersection a := by
  simp only [Line'.intersection, Nat.max_comm a.start b.start,
    Nat.min_comm a.stop b.stop]

/-- If the scan aborts with overlap, some scanned region intersects the
incoming one. -/
theorem mergeLoop_overlap_mem {V : Type} [DecidableEq V] (X : Region V) :
    ∀ rs : List (Region V), mergeLoop X rs = .overlap →
      ∃ r ∈ rs, (r.limits.intersection X.limits).isSome := by
  intro rs
  induction rs with
  | nil => simp [mergeLoop]
  | cons prev tail IH =>
    cases tail with
    | nil =>
      intro h
      simp only [mergeLoop] at h
      split_ifs at h with h1 h2
      · exact ⟨prev, by simp, h1⟩
    | cons next rest =>
      intro h
      simp only [mergeLoop] at h
      split_ifs at h with h1 h2 h3 h4
      · exact ⟨prev, by simp, h1⟩
      · exact ⟨next, by simp, h2⟩
      · cases hm : mergeLoop X (next :: rest) with
        | overlap =>
          obtain ⟨r, hr, hrX⟩ := IH hm
          exact ⟨r, by simp [hr], hrX⟩
        | merged rs0 => rw [hm] at h; exact absurd h (by simp)
        | nomerge => rw [hm] at h; exact absurd h (by simp)

/-- On a sorted slice of nonempty regions, any intersection anywhere makes
the scan abort with overlap (in particular, an early merge return never
hides an overlap further right). -/
theorem mergeLoop_overlap_of_mem {V : Type} [DecidableEq V] (X : Region V) :
    ∀ rs : List (Region V),
      (∀ r ∈ rs, r.limits.start < r.limits.stop) →
      rs.Pairwise (fun a b => a.limits.stop ≤ b.limits.start) →
      (∃ r ∈ rs, (r.limits.intersection X.limits).isSome) →
      mergeLoop X rs = .overlap := by
  intro rs
  induction rs with
  | nil => simp
  | cons prev tail IH =>
    intro hne hsort hmem
    cases tail with
    | nil =>
      obtain ⟨r, hr, hrX⟩ := hmem
      simp only [List.mem_singleton] at hr
      subst hr
      simp only [mergeLoop]
      rw [if_pos hrX]
    | cons next rest =>
      obtain ⟨r, hr, hrX⟩ := hmem
      simp only [mergeLoop]
      split_ifs with h1 h2 h3 h4
      · rfl
      · rfl
      · exfalso
        rcases List.mem_cons.mp hr with hr | hr
        · exact h1 (hr ▸ hrX)
        rcases List.mem_cons.mp hr with hr | hr
        · exact h2 (hr ▸ hrX)
        · apply h2
          rw [inter_isSome] at hrX ⊢
          have hps : prev.limits.stop ≤ next.limits.start :=
            (List.pairwise_cons.mp hsort).1 next (by simp)
          have hnr : next.limits.stop ≤ r.limits.start :=
            (List.pairwise_cons.mp (List.pairwise_cons.mp hsort).2).1 r hr
          have hnn : next.limits.start < next.limits.stop := hne next (by simp)
          omega
      · exfalso
        rcases List.mem_cons.mp hr with hr | hr
        · exact h1 (hr ▸ hrX)
        rcases List.mem_cons.mp hr with hr | hr
        · exact h2 (hr ▸ hrX)
        · rw [inter_isSome] at hrX
          have hnr : next.limits.stop ≤ r.limits.start :=
            (List.pairwise_cons.mp (List.pairwise_cons.mp hsort).2).1 r hr
          have hnn : next.limits.start < next.limits.stop := hne next (by simp)
          omega
      · have hre : mergeLoop X (next :: rest) = .overlap := by
          apply IH
          · intro r' hr'; exact hne r' (by simp [hr'])
          · exact (List.pairwise_cons.mp hsort).2
          · rcases List.mem_cons.mp hr with hr | hr
            · exact absurd (hr ▸ hrX) h1
            · exact ⟨r, hr, hrX⟩
        rw [hre]

/-- A merge rewrites exactly one scanned region in place: the merged list is
the input list with one region's limits extended to absorb the incoming
region on one side. -/
theorem mergeLoop_merged_shape {V : Type} [DecidableEq V] (X : Region V) :
    ∀ (rs rs' : List (Region V)), mergeLoop X rs = .merged rs' →
      ∃ i r, rs.get? i = some r ∧ r.value = X.value ∧
        ((r.limits.stop = X.limits.start ∧
          rs' = rs.set i ⟨⟨r.limits.start, X.limits.stop⟩, r.value⟩) ∨
         (r.limits.start = X.limits.stop ∧
          rs' = rs.set i ⟨⟨X.limits.start, r.limits.stop⟩, r.value⟩)) := by
  intro rs
  induction rs with
  | nil => simp [mergeLoop]
  | cons prev tail IH =>
    cases tail with
    | nil =>
      intro rs' h
      simp only [mergeLoop] at h
      split_ifs at h with h1 h2
      · cases h
        exact ⟨0, prev, rfl, h2.1, Or.inl ⟨h2.2, rfl⟩⟩
    | cons next rest =>
      intro rs' h
      simp only [mergeLoop] at h
      split_ifs at h with h1 h2 h3 h4
      · cases h
        exact ⟨0, prev, rfl, h3.1, Or.inl ⟨h3.2, rfl⟩⟩
      · cases h
        exact ⟨1, next, rfl, h4.1, Or.inr ⟨h4.2, rfl⟩⟩
      · cases hm : mergeLoop X (next :: rest) with
        | overlap => rw [hm] at h; exact absurd h (by simp)
        | merged rs0 =>
          rw [hm] at h
          cases h
          obtain ⟨i, r, hget, hval, hcase⟩ := IH rs0 hm
          refine ⟨i + 1, r, by simpa using hget, hval, ?_⟩
          rcases hcase with ⟨hadj, hset⟩ | ⟨hadj, hset⟩
          · exact Or.inl ⟨hadj, by simp [hset, List.set]⟩
          · exact Or.inr ⟨hadj, by simp [hset, List.set]⟩
        | nomerge => rw [hm] at h; exact absurd h (by simp)

/-- If the scan falls through without a merge, no scanned region intersects
the incoming one and no scanned region satisfies the merge-previous
condition. -/
theorem mergeLoop_nomerge_facts {V : Type} [DecidableEq V] (X : Region V) :
    ∀ rs : List (Region V), mergeLoop X rs = .nomerge →
      ∀ r ∈ rs, r.limits.intersection X.limits = none ∧
        ¬(r.value = X.value ∧ r.limits.stop = X.limits.start) := by
  intro rs
  induction rs with
  | nil => simp
  | cons prev tail IH =>
    cases tail with
    | nil =>
      intro h r hr
      simp only [List.mem_singleton] at hr
      subst hr
      simp only [mergeLoop] at h
      split_ifs at h with h1 h2
      exact ⟨Option.not_isSome_iff_eq_none.mp h1, h2⟩
    | cons next rest =>
      intro h r hr
      simp only [mergeLoop] at h
      split_ifs at h with h1 h2 h3 h4
      cases hm : mergeLoop X (next :: rest) with
      | overlap => rw [hm] at h; exact absurd h (by simp)
      | merged rs0 => rw [hm] at h; exact absurd h (by simp)
      | nomerge =>
        rcases List.mem_cons.mp hr with hr | hr
        · exact hr ▸ ⟨Option.not_isSome_iff_eq_none.mp h1, h3⟩
        · exact IH hm r hr

/-- If no scanned region intersects the incoming one and neither merge
condition holds anywhere, the scan falls through without a merge. -/
theorem mergeLoop_nomerge_of {V : Type} [DecidableEq V] (X : Region V) :
    ∀ rs : List (Region V),
      (∀ r ∈ rs, r.limits.intersection X.limits = none) →
      (∀ r ∈ rs, ¬(r.value = X.value ∧ r.limits.stop = X.limits.start)) →
      (∀ r ∈ rs, ¬(r.value = X.value ∧ r.limits.start = X.limits.stop)) →
      mergeLoop X rs = .nomerge := by
  intro rs
  induction rs with
  | nil => simp [mergeLoop]
  | cons prev tail IH =>
    intro hdisj hprev hnext
    cases tail with
    | nil =>
      simp only [mergeLoop]
      rw [if_neg (by simp [hdisj prev (by simp)]), if_neg (hprev prev (by simp))]
    | cons next rest =>
      simp only [mergeLoop]
      rw [if_neg (by simp [hdisj prev (by simp)]),
        if_neg (by simp [hdisj next (by simp)]),
        if_neg (hprev prev (by simp)), if_neg (hnext next (by simp)),
        IH (fun r hr => hdisj r (by simp [hr]))
          (fun r hr => hprev r (by simp [hr])) (fun r hr => hnext r (by simp [hr]))]

/-- On a sorted slice of nonempty regions with no intersection anywhere, a
region whose end touches the incoming region's start (with equal tag) is
merged forward, in place. -/
theorem mergeLoop_merge_prev_at {V : Type} [DecidableEq V] (X : Region V) :
    ∀ (rs : List (Region V)) (i : Nat) (R : Region V),
      (∀ r ∈ rs, r.limits.start < r.limits.stop) →
      rs.Pairwise (fun a b => a.limits.stop ≤ b.limits.start) →
      (∀ r ∈ rs, r.limits.intersection X.limits = none) →
      X.limits.start < X.limits.stop →
      rs.get? i = some R → R.value = X.value → R.limits.stop = X.limits.start →
      mergeLoop X rs = .merged (rs.set i ⟨⟨R.limits.start, X.limits.stop⟩, R.value⟩) := by
  intro rs
  induction rs with
  | nil => intro i R _ _ _ _ hget; simp at hget
  | cons prev tail IH =>
    intro i R hne hsort hdisj hX hget hval hadj
    cases tail with
    | nil =>
      cases i with
      | zero =>
        simp only [List.get?] at hget
        cases hget
        simp only [mergeLoop]
        rw [if_neg (by simp [hdisj prev (by simp)]), if_pos ⟨hval, hadj⟩]
        rfl
      | succ j => simp [List.get?] at hget
    | cons next rest =>
      have hRmem : R ∈ prev :: next :: rest := List.get?_mem hget
      cases i with
      | zero =>
        simp only [List.get?] at hget
        cases hget
        simp only [mergeLoop]
        rw [if_neg (by simp [hdisj prev (by simp)]),
          if_neg (by simp [hdisj next (by simp)]), if_pos ⟨hval, hadj⟩]
        rfl
      | succ j =>
        have hgetj : (next :: rest).get? j = some R := hget
        have hRtail : R ∈ next :: rest := List.get?_mem hgetj
        have hRne : R.limits.start < R.limits.stop := hne R hRmem
        have hps : prev.limits.stop ≤ next.limits.start :=
          (List.pairwise_cons.mp hsort).1 next (by simp)
        have hnR : next.limits.start ≤ R.limits.start := by
          rcases List.mem_cons.mp hRtail with h | h
          · rw [h]
          · have := (List.pairwise_cons.mp (List.pairwise_cons.mp hsort).2).1 R h
            have := hne next (by simp)
            omega
        simp only [mergeLoop]
        rw [if_neg (by simp [hdisj prev (by simp)]),
          if_neg (by simp [hdisj next (by simp)]),
          if_neg (by rintro ⟨-, h⟩; omega),
          if_neg (by rintro ⟨-, h⟩; omega),
          IH j R (fun r hr => hne r (by simp [hr])) (List.pairwise_cons.mp hsort).2
            (fun r hr => hdisj r (by simp [hr])) hX hgetj hval hadj]
        rfl

/-- On a sorted slice of nonempty regions with no intersection anywhere and
no merge-previous candidate, a region beyond the first whose start touches
the incoming region's end (with equal tag) is merged backward, in place. -/
theorem mergeLoop_merge_next_at {V : Type} [DecidableEq V] (X : Region V) :
    ∀ (rs : List (Region V)) (i : Nat) (R : Region V),
      (∀ r ∈ rs, r.limits.start < r.limits.stop) →
      rs.Pairwise (fun a b => a.limits.stop ≤ b.limits.start) →
      (∀ r ∈ rs, r.limits.intersection X.limits = none) →
      (∀ r ∈ rs, ¬(r.value = X.value ∧ r.limits.stop = X.limits.start)) →
      rs.get? i = some R → 0 < i → R.value = X.value → R.limits.start = X.limits.stop →
      mergeLoop X rs = .merged (rs.set i ⟨⟨X.limits.start, R.limits.stop⟩, R.value⟩) := by
  intro rs
  induction rs with
  | nil => intro i R _ _ _ _ hget; simp at hget
  | cons prev tail IH =>
    intro i R hne hsort hdisj hnoprev hget hpos hval hadj
    cases tail with
    | nil =>
      cases i with
      | zero => exact absurd hpos (by simp)
      | succ j => simp [List.get?] at hget
    | cons next rest =>
      cases i with
      | zero => exact absurd hpos (by simp)
      | succ j =>
        have hgetj : (next :: rest).get? j = some R := hget
        have hRtail : R ∈ next :: rest := List.get?_mem hgetj
        cases j with
        | zero =>
          simp only [List.get?] at hgetj
          cases hgetj
          simp only [mergeLoop]
          rw [if_neg (by simp [hdisj prev (by simp)]),
            if_neg (by simp [hdisj R (by simp)]),
            if_neg (hnoprev prev (by simp)), if_pos ⟨hval, hadj⟩]
          rfl
        | succ k =>
          have hgetk : (rest : List (Region V)).get? k = some R := hgetj
          have hRrest : R ∈ rest := List.get?_mem hgetk
          have hnR : next.limits.stop ≤ R.limits.start :=
            (List.pairwise_cons.mp (List.pairwise_cons.mp hsort).2).1 R hRrest
          have hnn : next.limits.start < next.limits.stop := hne next (by simp)
          simp only [mergeLoop]
          rw [if_neg (by simp [hdisj prev (by simp)]),
            if_neg (by simp [hdisj next (by simp)]),
            if_neg (hnoprev prev (by simp)),
            if_neg (by rintro ⟨-, h⟩; omega),
            IH (k + 1) R (fun r hr => hne r (by simp [hr])) (List.pairwise_cons.mp hsort).2
              (fun r hr => hdisj r (by simp [hr])) (fun r hr => hnoprev r (by simp [hr]))
              hgetj (by simp) hval hadj]
          rfl

/-- Ordered insertion permutes. -/
theorem insertBy_perm {V : Type} (x : Region V) :
    ∀ l : List (Region V), (insertBy x l).Perm (x :: l) := by
  intro l
  induction l with
  | nil => exact List.Perm.refl _
  | cons y ys IH =>
    simp only [insertBy]
    split
    · exact List.Perm.refl _
    · exact (IH.cons y).trans (List.Perm.swap x y ys)

/-- Sorting permutes. -/
theorem sortRegions_perm {V : Type} :
    ∀ l : List (Region V), (sortRegions l).Perm l := by
  intro l
  induction l with
  | nil => exact List.Perm.refl _
  | cons x xs IH => exact (insertBy_perm x (sortRegions xs)).trans (IH.cons x)

/-- On nonempty disjoint regions the sort comparator is the strict order of
start addresses. -/
theorem regionCmp_le_iff {V : Type} (x y : Region V)
    (hx : x.limits.start < x.limits.stop) (hy : y.limits.start < y.limits.stop)
    (hd : x.limits.intersection y.limits = none) :
    (regionCmp x y ≠ Ordering.gt ↔ x.limits.start < y.limits.start) := by
  have h2 := (inter_none _ _).mp hd
  have hne : ¬(x.limits = y.limits) := by
    intro h; rw [h] at h2; simp at h2; omega
  have hxe : ¬(x.limits.isEmpty = true) := by simp [Line'.isEmpty]; omega
  have hye : ¬(y.limits.isEmpty = true) := by simp [Line'.isEmpty]; omega
  rw [regionCmp, if_neg hne, if_neg hxe, if_neg hye]
  simp only [ne_eq, Nat.compare_eq_gt]
  omega

/-- Ordered insertion of a nonempty region disjoint from a strictly sorted
list of nonempty regions keeps the list strictly sorted by start address. -/
theorem insertBy_pairwise {V : Type} (x : Region V)
    (hx : x.limits.start < x.limits.stop) :
    ∀ l : List (Region V),
      (∀ y ∈ l, y.limits.start < y.limits.stop) →
      (∀ y ∈ l, x.limits.intersection y.limits = none) →
      l.Pairwise (fun a b => a.limits.start < b.limits.start) →
      (insertBy x l).Pairwise (fun a b => a.limits.start < b.limits.start) := by
  intro l
  induction l with
  | nil => intro _ _ _; simp [insertBy]
  | cons y ys IH =>
    intro hne hdisj hsort
    simp only [insertBy]
    split_ifs with hc
    · have hxy : x.limits.start < y.limits.start :=
        (regionCmp_le_iff x y hx (hne y (by simp)) (hdisj y (by simp))).mp hc
      rw [List.pairwise_cons]
      refine ⟨?_, hsort⟩
      intro z hz
      rcases List.mem_cons.mp hz with rfl | hz
      · exact hxy
      · exact hxy.trans ((List.pairwise_cons.mp hsort).1 z hz)
    · have hyx : y.limits.start < x.limits.start := by
        have hiff := regionCmp_le_iff x y hx (hne y (by simp)) (hdisj y (by simp))
        have h2 := (inter_none _ _).mp (hdisj y (by simp))
        have := hne y (by simp)
        have hnlt : ¬x.limits.start < y.limits.start := fun hlt => hc (hiff.mpr hlt)
        omega
      rw [List.pairwise_cons]
      constructor
      · intro z hz
        have hz' : z = x ∨ z ∈ ys := by
          have := (insertBy_perm x ys).mem_iff.mp hz
          simpa using this
        rcases hz' with rfl | hz'
        · exact hyx
        · exact (List.pairwise_cons.mp hsort).1 z hz'
      · exact IH (fun z hz => hne z (by simp [hz])) (fun z hz => hdisj z (by simp [hz]))
          (List.pairwise_cons.mp hsort).2

/-- Sorting a list of nonempty pairwise disjoint regions yields a list
strictly sorted by start address. -/
theorem sortRegions_pairwise {V : Type} :
    ∀ l : List (Region V),
      (∀ y ∈ l, y.limits.start < y.limits.stop) →
      l.Pairwise (fun a b => a.limits.intersection b.limits = none) →
      (sortRegions l).Pairwise (fun a b => a.limits.start < b.limits.start) := by
  intro l
  induction l with
  | nil => intro _ _; simp [sortRegions]
  | cons x xs IH =>
    intro hne hdisj
    simp only [sortRegions]
    apply insertBy_pairwise x (hne x (by simp))
    · intro y hy
      exact hne y (by simp [(sortRegions_perm xs).mem_iff.mp hy])
    · intro y hy
      exact (List.pairwise_cons.mp hdisj).1 y ((sortRegions_perm xs).mem_iff.mp hy)
    · exact IH (fun y hy => hne y (by simp [hy])) (List.pairwise_cons.mp hdisj).2

/-- Sorting a list of nonempty pairwise disjoint regions yields a list in
which each region ends before the next begins. -/
theorem sortRegions_ordered {V : Type} (l : List (Region V))
    (hne : ∀ y ∈ l, y.limits.start < y.limits.stop)
    (hdisj : l.Pairwise (fun a b => a.limits.intersection b.limits = none)) :
    (sortRegions l).Pairwise (fun a b => a.limits.stop ≤ b.limits.start) := by
  have hlt := sortRegions_pairwise l hne hdisj
  have hsymm : Symmetric (fun a b : Region V => a.limits.intersection b.limits = none) := by
    intro a b hab
    rw [inter_comm]
    exact hab
  have hdisj' : (sortRegions l).Pairwise
      (fun a b => a.limits.intersection b.limits = none) :=
    ((sortRegions_perm l).pairwise_iff (fun hab => hsymm hab)).mpr hdisj
  have hmem : ∀ y ∈ sortRegions l, y.limits.start < y.limits.stop :=
    fun y hy => hne y ((sortRegions_perm l).mem_iff.mp hy)
  refine List.Pairwise.imp_of_mem ?_ (hlt.and hdisj')
  intro a b ha hb hab
  have h2 := (inter_none _ _).mp hab.2
  have := hmem b hb
  omega

/-- Decomposition form of the merged-list shape: a merge keeps a prefix and
a suffix of the scanned list intact and extends the one region between
them. -/
theorem mergeLoop_merged_split {V : Type} [DecidableEq V] (X : Region V) :
    ∀ (rs rs' : List (Region V)), mergeLoop X rs = .merged rs' →
      ∃ l1 r r' l2, rs = l1 ++ r :: l2 ∧ rs' = l1 ++ r' :: l2 ∧
        r'.value = r.value ∧ r.value = X.value ∧
        ((r.limits.stop = X.limits.start ∧
          r'.limits = ⟨r.limits.start, X.limits.stop⟩) ∨
         (r.limits.start = X.limits.stop ∧
          r'.limits = ⟨X.limits.start, r.limits.stop⟩)) := by
  intro rs
  induction rs with
  | nil => simp [mergeLoop]
  | cons prev tail IH =>
    cases tail with
    | nil =>
      intro rs' h
      simp only [mergeLoop] at h
      split_ifs at h with h1 h2
      · cases h
        exact ⟨[], prev, _, [], rfl, rfl, rfl, h2.1, Or.inl ⟨h2.2, rfl⟩⟩
    | cons next rest =>
      intro rs' h
      simp only [mergeLoop] at h
      split_ifs at h with h1 h2 h3 h4
      · cases h
        exact ⟨[], prev, _, next :: rest, rfl, rfl, rfl, h3.1, Or.inl ⟨h3.2, rfl⟩⟩
      · cases h
        exact ⟨[prev], next, _, rest, rfl, rfl, rfl, h4.1, Or.inr ⟨h4.2, rfl⟩⟩
      · cases hm : mergeLoop X (next :: rest) with
        | overlap => rw [hm] at h; exact absurd h (by simp)
        | merged rs0 =>
          rw [hm] at h
          cases h
          obtain ⟨l1, r, r', l2, he1, he2, hv', hvX, hc⟩ := IH rs0 hm
          exact ⟨prev :: l1, r, r', l2, by simp [he1], by simp [he2], hv', hvX, hc⟩
        | nomerge => rw [hm] at h; exact absurd h (by simp)

/-- `Ledger::insert` preserves the ledger invariant. -/
theorem insert_inv {V : Type} [DecidableEq V] (st : Ledger V) (X : Region V)
    (h : Inv st) : Inv (st.insert X).2 := by
  obtain ⟨hwf, hlen, hreg, hord⟩ := h
  unfold Ledger.insert
  by_cases h1 : X.limits.stop ≤ X.limits.start
  · rw [if_pos h1]
    exact ⟨hwf, hlen, hreg, hord⟩
  rw [if_neg h1]
  by_cases h2 : X.limits.start < st.limits.start ∨ st.limits.stop < X.limits.stop
  · rw [if_pos h2]
    exact ⟨hwf, hlen, hreg, hord⟩
  rw [if_neg h2]
  have hX : X.limits.start < X.limits.stop := by omega
  push_neg at h2
  obtain ⟨hlo, hhi⟩ := h2
  split
  · exact ⟨hwf, hlen, hreg, hord⟩
  · rename_i rs' hm
    have hnoint : ∀ r ∈ st.regions, r.limits.intersection X.limits = none := by
      intro r hr
      cases hI : r.limits.intersection X.limits with
      | none => rfl
      | some v =>
        have hov : mergeLoop X st.regions = .overlap :=
          mergeLoop_overlap_of_mem X st.regions (fun r' hr' => (hreg r' hr').1) hord
            ⟨r, hr, by simp [hI]⟩
        rw [hov] at hm
        exact absurd hm (by simp)
    obtain ⟨l1, r, r', l2, he1, he2, hv', hvX, hc⟩ :=
      mergeLoop_merged_split X st.regions rs' hm
    subst he2
    have hrmem : r ∈ st.regions := by rw [he1]; simp
    have hrne := hreg r hrmem
    refine ⟨hwf, ?_, ?_, ?_⟩
    · rw [he1] at hlen
      simpa using hlen
    · intro a ha
      simp only [List.mem_append, List.mem_cons] at ha
      rcases ha with ha | ha | ha
      · exact hreg a (by rw [he1]; simp [ha])
      · subst ha
        rcases hc with ⟨hadj, hlim⟩ | ⟨hadj, hlim⟩ <;>
          exact ⟨by simp [hlim]; omega, by simp [hlim]; omega, by simp [hlim]; omega⟩
      · exact hreg a (by rw [he1]; simp [ha])
    · rw [he1] at hord
      rw [List.pairwise_append] at hord ⊢
      obtain ⟨hp1, hp2, hcross⟩ := hord
      obtain ⟨hr2, hpl2⟩ := List.pairwise_cons.mp hp2
      refine ⟨hp1, ?_, ?_⟩
      · rw [List.pairwise_cons]
        refine ⟨?_, hpl2⟩
        intro b hb
        have hbr : r.limits.stop ≤ b.limits.start := hr2 b hb
        have hbne := hreg b (by rw [he1]; simp [hb])
        have hbint := (inter_none _ _).mp (hnoint b (by rw [he1]; simp [hb]))
        rcases hc with ⟨hadj, hlim⟩ | ⟨hadj, hlim⟩ <;> simp only [hlim] <;> omega
      · intro a ha b hb
        have hane := hreg a (by rw [he1]; simp [ha])
        have haint := (inter_none _ _).mp (hnoint a (by rw [he1]; simp [ha]))
        have har : a.limits.stop ≤ r.limits.start := hcross a ha r (by simp)
        rcases List.mem_cons.mp hb with rfl | hb
        · rcases hc with ⟨hadj, hlim⟩ | ⟨hadj, hlim⟩ <;> simp only [hlim] <;> omega
        · exact hcross a ha b (by simp [hb])
  · rename_i hm
    split_ifs with hcap
    · have hfacts := mergeLoop_nomerge_facts X st.regions hm
      refine ⟨hwf, ?_, ?_, ?_⟩
      · rw [(sortRegions_perm _).length_eq]
        simp only [List.length_append, List.length_singleton]
        omega
      · intro a ha
        have ha' : a ∈ st.regions ++ [X] := (sortRegions_perm _).mem_iff.mp ha
        rcases List.mem_append.mp ha' with ha' | ha'
        · exact hreg a ha'
        · simp only [List.mem_singleton] at ha'
          subst ha'
          exact ⟨hX, hlo, hhi⟩
      · have hdisj : (st.regions ++ [X]).Pairwise
            (fun a b => a.limits.intersection b.limits = none) := by
          rw [List.pairwise_append]
          refine ⟨hord.imp ?_, by simp, ?_⟩
          · intro a b hab
            rw [inter_none]
            omega
          · intro a ha b hb
            simp only [List.mem_singleton] at hb
            subst hb
            exact (hfacts a ha).1
        have hne' : ∀ y ∈ st.regions ++ [X], y.limits.start < y.limits.stop := by
          intro y hy
          rcases List.mem_append.mp hy with hy | hy
          · exact (hreg y hy).1
          · simp only [List.mem_singleton] at hy
            subst hy
            exact hX
        exact sortRegions_ordered (st.regions ++ [X]) hne' hdisj
    · exact ⟨hwf, hlen, hreg, hord⟩

/-- Every reachable ledger state satisfies the invariant. -/
theorem reachable_inv {V : Type} [DecidableEq V] {st : Ledger V}
    (h : Reachable st) : Inv st := by
  induction h with
  | new limits cap hwf =>
    exact ⟨hwf, by simp [Ledger.new], by simp [Ledger.new], by simp [Ledger.new]⟩
  | step st X h IH => exact insert_inv st X IH

/-- Elements of the consecutive-pair list are related by any relation that
chains the underlying list. -/
theorem linePairs_chain {R : Line' → Line' → Prop} :
    ∀ l : List Line', l.Chain' R → ∀ p ∈ linePairs l, R p.1 p.2 := by
  intro l
  induction l with
  | nil => simp [linePairs]
  | cons a t IH =>
    cases t with
    | nil => simp [linePairs]
    | cons b rest =>
      intro hch p hp
      simp only [linePairs, List.mem_cons] at hp
      rcases hp with rfl | hp
      · exact (List.chain'_cons.mp hch).1
      · exact IH (List.chain'_cons.mp hch).2 p hp

/-- Both components of a consecutive pair are members of the underlying
list. -/
theorem linePairs_sub : ∀ l : List Line', ∀ p ∈ linePairs l, p.1 ∈ l ∧ p.2 ∈ l := by
  intro l
  induction l with
  | nil => simp [linePairs]
  | cons a t IH =>
    cases t with
    | nil => simp [linePairs]
    | cons b rest =>
      intro p hp
      simp only [linePairs, List.mem_cons] at hp
      rcases hp with rfl | hp
      · simp
      · have := IH p hp
        exact ⟨by simp [this.1], by simp [this.2]⟩

/-- The last element with default is a member of a nonempty list. -/
theorem getLastD_mem {α : Type} : ∀ (l : List α) (d : α), l = [] ∨ l.getLastD d ∈ l := by
  intro l
  induction l with
  | nil => intro d; exact Or.inl rfl
  | cons a t IH =>
    intro d
    right
    rw [List.getLastD_cons]
    rcases IH a with h | h
    · subst h
      simp [List.getLastD]
    · exact List.mem_cons_of_mem a h

/-- On an invariant state, every scanned window satisfies
`l.start ≤ r.stop`: the first subtraction of `find_free` cannot
underflow. -/
theorem windows_le {V : Type} (st : Ledger V) (hInv : Inv st) :
    ∀ p ∈ st.windows, p.1.start ≤ p.2.stop := by
  obtain ⟨hwf, hlen, hreg, hord⟩ := hInv
  intro p hp
  simp only [Ledger.windows, List.mem_cons, List.mem_append,
    List.mem_singleton] at hp
  rcases hp with rfl | hp | rfl | h
  rotate_right
  · exact absurd h (by simp)
  · rcases hr : st.regions with _ | ⟨r, rs⟩
    · simp [hr]
      exact hwf
    · have := hreg r (by simp [hr])
      simp [hr]
      omega
  · have hsub := linePairs_sub _ p hp
    have hch : (st.regions.map (fun r => r.limits)).Chain'
        (fun a b => a.stop ≤ b.start) := by
      rw [List.chain'_map]
      exact List.Pairwise.chain' hord
    have hrel := linePairs_chain _ hch p hp
    obtain ⟨a, ha, hal⟩ := List.mem_map.mp hsub.1
    obtain ⟨b, hb, hbl⟩ := List.mem_map.mp hsub.2
    have h1 := (hreg a ha).1
    have h2 := (hreg b hb).1
    rw [hal] at h1
    rw [hbl] at h2
    omega
  · rcases getLastD_mem (st.regions.map (fun r => r.limits))
        ⟨st.limits.start, st.limits.start⟩ with h | h
    · simp [h]
      exact hwf
    · obtain ⟨a, ha, hal⟩ := List.mem_map.mp h
      have h1 := hreg a ha
      dsimp only
      rw [← hal]
      omega

/-- The forward scan returns an ordinary result whenever every window
satisfies the bound of the first subtraction. -/
theorem scanFront_isSome (len : Nat) :
    ∀ ws : List (Line' × Line'),
      (∀ p ∈ ws, p.1.start ≤ p.2.stop) → (scanFront len ws).isSome := by
  intro ws
  induction ws with
  | nil => intro _; simp [scanFront]
  | cons w t IH =>
    intro hb
    obtain ⟨l, r⟩ := w
    simp only [scanFront]
    split_ifs with hg ha
    · exact absurd (hb (l, r) (by simp)) (by simp; omega)
    · simp
    · exact IH (fun p hp => hb p (by simp [hp]))

/-- A duplicated head window does not change the forward scan. -/
theorem scanFront_cons_cons (len : Nat) (w : Line' × Line')
    (ws : List (Line' × Line')) :
    scanFront len (w :: w :: ws) = scanFront len (w :: ws) := by
  obtain ⟨l, r⟩ := w
  by_cases hg : r.stop < l.start
  · simp [scanFront, hg]
  · by_cases ha : len < r.stop - l.start
    · simp [scanFront, hg, ha]
    · simp [scanFront, hg, ha]

/-- A duplicated head window does not change the backward scan. -/
theorem scanBack_cons_cons (len : Nat) (w : Line' × Line')
    (ws : List (Line' × Line')) :
    scanBack len (w :: w :: ws) = scanBack len (w :: ws) := by
  obtain ⟨l, r⟩ := w
  by_cases hg : r.stop < l.start
  · simp [scanBack, hg]
  · by_cases ha : len < r.stop - l.start
    · simp [scanBack, hg, ha]
    · simp [scanBack, hg, ha]

/-- Splitting the trailing element off a consecutive-pair list. -/
theorem linePairs_append_last :
    ∀ (xs : List Line') (x b : Line'),
      linePairs (x :: (xs ++ [b])) = linePairs (x :: xs) ++ [(xs.getLastD x, b)] := by
  intro xs
  induction xs with
  | nil => intro x b; simp [linePairs, List.getLastD]
  | cons y ys IH =>
    intro x b
    simp only [List.cons_append]
    have hstep : linePairs (x :: y :: (ys ++ [b]))
        = (x, y) :: linePairs (y :: (ys ++ [b])) := rfl
    rw [hstep, IH y b, List.getLastD_cons]
    rfl

/-- The chained window list of the source coincides with the consecutive
pairs of the single marker-extended sequence, for a nonempty region list. -/
theorem linePairs_marker (s e x : Line') (xs : List Line') :
    (s, (x :: xs).headD e) :: (linePairs (x :: xs) ++ [((x :: xs).getLastD s, e)])
      = linePairs (s :: ((x :: xs) ++ [e])) := by
  rw [linePairs_append_last (x :: xs) s e]
  simp [linePairs, List.getLastD_cons]

/-- Inserting into a ledger with no active regions appends (or hits the
capacity ceiling), once the validity guards pass. -/
theorem insert_empty {V : Type} [DecidableEq V] (st : Ledger V) (X : Region V)
    (hempty : st.regions = [])
    (g1 : ¬(X.limits.stop ≤ X.limits.start))
    (g2 : ¬(X.limits.start < st.limits.start ∨ st.limits.stop < X.limits.stop)) :
    st.insert X = if 0 < st.cap then (.ok (), { st with regions := [X] })
      else (.error .OutOfCapacity, st) := by
  rw [Ledger.insert, if_neg g1, if_neg g2, hempty]
  simp [mergeLoop, sortRegions, insertBy]

/-- If the scan did not abort with overlap on a sorted slice of nonempty
regions, no scanned region intersects the incoming one. -/
theorem mergeLoop_not_overlap_no_inter {V : Type} [DecidableEq V]
    (X : Region V) (rs : List (Region V))
    (hne : ∀ r ∈ rs, r.limits.start < r.limits.stop)
    (hsort : rs.Pairwise (fun a b => a.limits.stop ≤ b.limits.start))
    (hnov : mergeLoop X rs ≠ .overlap) :
    ∀ r ∈ rs, r.limits.intersection X.limits = none := by
  intro r hr
  cases hI : r.limits.intersection X.limits with
  | none => rfl
  | some v =>
    exact absurd (mergeLoop_overlap_of_mem X rs hne hsort ⟨r, hr, by simp [hI]⟩) hnov

/-- C3: `find_free` scans exactly the consecutive window pairs of the
sequence formed by a zero-width marker at the lower limit, the active
regions in order, and a zero-width marker at the upper limit; a pair is
accepted exactly when `right.end - left.start` strictly exceeds the length;
with `front = true` the scan is low-to-high and yields
`[left.end, left.end + length)`, with `front = false` it is high-to-low and
yields `[right.start - length, right.start)`; otherwise `OutOfSpace`.
Formally, the source's chained-window search agrees with `findFreeSpec`,
written from the spec's wording, on every state, length and direction
(on the empty ledger the source scans its one conceptual window twice,
which cannot change the answer). -/
theorem find_free_matches_spec {V : Type} (st : Ledger V) (len : Nat)
    (front : Bool) : st.findFree len front = findFreeSpec st len front := by
  rcases hr : st.regions with _ | ⟨r, rs⟩
  · have hw : st.windows
        = [(⟨st.limits.start, st.limits.start⟩, ⟨st.limits.stop, st.limits.stop⟩),
           (⟨st.limits.start, st.limits.start⟩, ⟨st.limits.stop, st.limits.stop⟩)] := by
      simp [Ledger.windows, hr, linePairs]
    have hs : linePairs (⟨st.limits.start, st.limits.start⟩ ::
          (st.regions.map (fun x => x.limits) ++ [⟨st.limits.stop, st.limits.stop⟩]))
        = [(⟨st.limits.start, st.limits.start⟩, ⟨st.limits.stop, st.limits.stop⟩)] := by
      simp [hr, linePairs]
    rw [Ledger.findFree, findFreeSpec, hw, hs]
    cases front
    · simp only [Bool.false_eq_true, if_false, List.reverse_cons, List.reverse_nil,
        List.nil_append, List.singleton_append]
      exact scanBack_cons_cons len _ []
    · simp only [if_true]
      exact scanFront_cons_cons len _ []
  · have hw : st.windows = linePairs (⟨st.limits.start, st.limits.start⟩ ::
          (st.regions.map (fun x => x.limits) ++ [⟨st.limits.stop, st.limits.stop⟩])) := by
      simp only [Ledger.windows, hr, List.map_cons]
      exact linePairs_marker _ _ _ _
    rw [Ledger.findFree, findFreeSpec, hw]

/-- C1 (counterexample): on the reachable ledger holding `[1, 9)` inside
limits `[0, 10)`, `find_free(3, front)` returns `[0, 3)`, which overlaps the
active region, so the immediate `insert` of that interval fails with
`Overlap`, not `OutOfCapacity` — the spanning formula counts the flanking
region's own pages as free. -/
theorem find_free_insert_consistency_cex :
    Reachable ((Ledger.new ⟨0, 10⟩ 8 : Ledger Nat).insert ⟨⟨1, 9⟩, some 0⟩).2 ∧
    ((Ledger.new ⟨0, 10⟩ 8 : Ledger Nat).insert ⟨⟨1, 9⟩, some 0⟩).2.findFree 3 true
      = some (.ok ⟨0, 3⟩) ∧
    (((Ledger.new ⟨0, 10⟩ 8 : Ledger Nat).insert ⟨⟨1, 9⟩, some 0⟩).2.insert
      ⟨⟨0, 3⟩, some 0⟩).1 = .error .Overlap :=
  ⟨Reachable.step _ _ (Reachable.new _ _ (by decide)), rfl, rfl⟩

/-- C1 (amended): on a ledger with no active regions, a well-formed window
and a positive requested length, an interval returned by `find_free`
(either direction) is accepted by an immediate `insert` with any tag,
unless the capacity is zero, in which case the failure is
`OutOfCapacity`. -/
theorem find_free_insert_empty_consistent {V : Type} [DecidableEq V]
    (st : Ledger V) (len : Nat) (front : Bool) (line : Line') (v : Option V)
    (hempty : st.regions = [])
    (hwf : st.limits.start ≤ st.limits.stop)
    (hpos : 0 < len)
    (hfind : st.findFree len front = some (.ok line)) :
    (st.insert ⟨line, v⟩).1 = .ok () ∨
    (st.cap = 0 ∧ (st.insert ⟨line, v⟩).1 = .error .OutOfCapacity) := by
  have hw : st.windows
      = [(⟨st.limits.start, st.limits.start⟩, ⟨st.limits.stop, st.limits.stop⟩),
         (⟨st.limits.start, st.limits.start⟩, ⟨st.limits.stop, st.limits.stop⟩)] := by
    simp [Ledger.windows, hempty, linePairs]
  have hrev : st.windows.reverse
      = [(⟨st.limits.start, st.limits.start⟩, ⟨st.limits.stop, st.limits.stop⟩),
         (⟨st.limits.start, st.limits.start⟩, ⟨st.limits.stop, st.limits.stop⟩)] := by
    rw [hw]
    rfl
  rw [Ledger.findFree] at hfind
  have hmain : st.limits.start ≤ line.start ∧ line.start < line.stop ∧
      line.stop ≤ st.limits.stop := by
    cases front with
    | true =>
      rw [if_pos rfl, hw] at hfind
      simp only [scanFront] at hfind
      rw [if_neg (by simp; omega)] at hfind
      by_cases hacc : len < st.limits.stop - st.limits.start
      · rw [if_pos hacc] at hfind
        cases hfind
        simp only
        omega
      · rw [if_neg hacc, if_neg (by simp; omega), if_neg hacc] at hfind
        simp at hfind
    | false =>
      rw [if_neg (by simp), hrev] at hfind
      simp only [scanBack] at hfind
      rw [if_neg (by simp; omega)] at hfind
      by_cases hacc : len < st.limits.stop - st.limits.start
      · rw [if_pos hacc, if_neg (by simp; omega)] at hfind
        cases hfind
        simp only
        omega
      · rw [if_neg hacc, if_neg (by simp; omega), if_neg hacc] at hfind
        simp at hfind
  obtain ⟨hs1, hs2, hs3⟩ := hmain
  rw [insert_empty st ⟨line, v⟩ hempty (by simpa using hs2)
    (by simp only; omega)]
  rcases Nat.eq_zero_or_pos st.cap with hc | hc
  · rw [if_neg (by omega)]
    exact Or.inr ⟨hc, rfl⟩
  · rw [if_pos hc]
    exact Or.inl rfl

/-- C1 (amended, witness): on an empty ledger with limits `[1, 16)` and
capacity 8, inserting the interval `[1, 3)` returned by
`find_free(2, true)` succeeds. -/
theorem find_free_insert_empty_consistent_witness :
    ((Ledger.new ⟨1, 16⟩ 8 : Ledger Nat).insert ⟨⟨1, 3⟩, some 0⟩).1 = .ok () ∨
    ((Ledger.new ⟨1, 16⟩ 8 : Ledger Nat).cap = 0 ∧
      ((Ledger.new ⟨1, 16⟩ 8 : Ledger Nat).insert ⟨⟨1, 3⟩, some 0⟩).1
        = .error .OutOfCapacity) :=
  find_free_insert_empty_consistent _ 2 true ⟨1, 3⟩ (some 0) rfl (by decide)
    (by decide) rfl

/-- C2 (counterexample): on the reachable ledger holding `[1, 80)` and
`[81, 99)` inside limits `[0, 100)`, `find_free(90, false)` accepts the
middle window (`99 - 1 > 90`) and then the subtraction
`r.limits.start - len = 81 - 90` underflows: the call does not return an
ordinary result (`none` models the aborting usize subtraction). -/
theorem find_free_back_underflow_cex :
    Reachable (((Ledger.new ⟨0, 100⟩ 8 : Ledger Nat).insert ⟨⟨1, 80⟩, some 0⟩).2.insert
      ⟨⟨81, 99⟩, some 0⟩).2 ∧
    (((Ledger.new ⟨0, 100⟩ 8 : Ledger Nat).insert ⟨⟨1, 80⟩, some 0⟩).2.insert
      ⟨⟨81, 99⟩, some 0⟩).2.findFree 90 false = none :=
  ⟨Reachable.step _ _ (Reachable.step _ _ (Reachable.new _ _ (by decide))), rfl⟩

/-- C2 (amended): `insert` is total by construction (it contains no fallible
arithmetic), and on every reachable state `find_free` with `front = true`
returns an ordinary result: the subtraction `r.limits.end - l.limits.start`
never underflows there.  (With `front = false` the subtraction
`r.limits.start - len` can underflow on a reachable state.) -/
theorem find_free_front_no_underflow {V : Type} [DecidableEq V]
    (st : Ledger V) (h : Reachable st) (len : Nat) :
    (st.findFree len true).isSome := by
  rw [Ledger.findFree, if_pos rfl]
  exact scanFront_isSome len st.windows (windows_le st (reachable_inv h))

/-- C2 (amended, witness): the forward search returns an ordinary result on
a freshly constructed ledger even for an oversized request. -/
theorem find_free_front_no_underflow_witness :
    ((Ledger.new ⟨0, 100⟩ 8 : Ledger Nat).findFree 250 true).isSome :=
  find_free_front_no_underflow _ (Reachable.new _ _ (by decide)) 250

/-- C9: every `insert` call that returns an error (`InvalidRegion`,
`Overlap` or `OutOfCapacity`) leaves the ledger state completely
unchanged. -/
theorem insert_rejection_frame {V : Type} [DecidableEq V]
    (st : Ledger V) (X : Region V) (e : Error) (st' : Ledger V)
    (h : st.insert X = (.error e, st')) : st' = st := by
  unfold Ledger.insert at h
  split_ifs at h with h1 h2 hcap <;>
    first
      | (cases h; rfl)
      | (split at h <;> first | (cases h; rfl) | simp at h)

/-- C9 (witness): a rejected zero-length insert leaves the fresh ledger
unchanged. -/
theorem insert_rejection_frame_witness :
    ((Ledger.new ⟨1, 16⟩ 8 : Ledger Nat).insert ⟨⟨5, 5⟩, none⟩).2
      = Ledger.new ⟨1, 16⟩ 8 :=
  insert_rejection_frame (Ledger.new ⟨1, 16⟩ 8) ⟨⟨5, 5⟩, none⟩ Error.InvalidRegion
    ((Ledger.new ⟨1, 16⟩ 8 : Ledger Nat).insert ⟨⟨5, 5⟩, none⟩).2 (by rfl)

/-- C4: on every state reachable by successful inserts from a freshly
constructed ledger, the active regions are pairwise non-intersecting as
half-open intervals and each lies within the ledger's overall limits. -/
theorem insert_preserves_disjoint_within {V : Type} [DecidableEq V]
    (st : Ledger V) (h : Reachable st) :
    st.regions.Pairwise (fun a b => a.limits.intersection b.limits = none) ∧
    ∀ r ∈ st.regions, st.limits.start ≤ r.limits.start ∧
      r.limits.stop ≤ st.limits.stop := by
  obtain ⟨hwf, hlen, hreg, hord⟩ := reachable_inv h
  refine ⟨?_, fun r hr => ⟨(hreg r hr).2.1, (hreg r hr).2.2⟩⟩
  exact hord.imp (fun hab => by rw [inter_none]; omega)

/-- C4 (witness): the invariant instantiated on a ledger that inserted
`[4, 5)` and `[8, 9)` inside `[1, 16)`. -/
theorem insert_preserves_disjoint_within_witness :
    (((Ledger.new ⟨1, 16⟩ 8 : Ledger Nat).insert ⟨⟨4, 5⟩, some 0⟩).2.insert
        ⟨⟨8, 9⟩, some 1⟩).2.regions.Pairwise
      (fun a b => a.limits.intersection b.limits = none) ∧
    ∀ r ∈ (((Ledger.new ⟨1, 16⟩ 8 : Ledger Nat).insert ⟨⟨4, 5⟩, some 0⟩).2.insert
        ⟨⟨8, 9⟩, some 1⟩).2.regions,
      (((Ledger.new ⟨1, 16⟩ 8 : Ledger Nat).insert ⟨⟨4, 5⟩, some 0⟩).2.insert
        ⟨⟨8, 9⟩, some 1⟩).2.limits.start ≤ r.limits.start ∧
      r.limits.stop ≤ (((Ledger.new ⟨1, 16⟩ 8 : Ledger Nat).insert
        ⟨⟨4, 5⟩, some 0⟩).2.insert ⟨⟨8, 9⟩, some 1⟩).2.limits.stop :=
  insert_preserves_disjoint_within _
    (Reachable.step _ _ (Reachable.step _ _ (Reachable.new _ _ (by decide))))

/-- C5: after any successful `insert` on a reachable state, the active
regions seen through `regions()` are strictly ascending by start address. -/
theorem insert_sorted_strict {V : Type} [DecidableEq V]
    (st : Ledger V) (X : Region V) (st' : Ledger V) (h : Reachable st)
    (hok : st.insert X = (.ok (), st')) :
    st'.regions.Pairwise (fun a b => a.limits.start < b.limits.start) := by
  have h2 : Reachable st' := by
    have hs := Reachable.step st X h
    rw [hok] at hs
    exact hs
  obtain ⟨hwf, hlen, hreg, hord⟩ := reachable_inv h2
  exact List.Pairwise.imp_of_mem
    (fun ha hb hab => by have := (hreg _ ha).1; omega) hord

/-- C5 (witness): sortedness after a successful insert on a fresh ledger. -/
theorem insert_sorted_strict_witness :
    ((Ledger.new ⟨1, 16⟩ 8 : Ledger Nat).insert ⟨⟨4, 5⟩, some 0⟩).2.regions.Pairwise
      (fun a b => a.limits.start < b.limits.start) :=
  insert_sorted_strict (Ledger.new ⟨1, 16⟩ 8 : Ledger Nat) ⟨⟨4, 5⟩, some 0⟩
    ((Ledger.new ⟨1, 16⟩ 8 : Ledger Nat).insert ⟨⟨4, 5⟩, some 0⟩).2
    (Reachable.new _ _ (by decide)) (by rfl)

/-- C6 (counterexample): on the reachable ledger holding exactly
`[2, 3)` with tag `0` inside `[0, 10)`, inserting `[1, 2)` with the same
tag satisfies every premise of the claim with `R = [2, 3)` (equal tags,
`R.start = X.end`, `X` valid, contained and disjoint from every active
region), yet the insert appends instead of merging: the active count grows
from 1 to 2.  The first active region is never a peeked `next` of the scan,
so its merge-backward rule never fires. -/
theorem insert_merge_adjacent_cex :
    Reachable ((Ledger.new ⟨0, 10⟩ 8 : Ledger Nat).insert ⟨⟨2, 3⟩, some 0⟩).2 ∧
    ((Ledger.new ⟨0, 10⟩ 8 : Ledger Nat).insert ⟨⟨2, 3⟩, some 0⟩).2.regions
      = [⟨⟨2, 3⟩, some 0⟩] ∧
    (∀ r ∈ ((Ledger.new ⟨0, 10⟩ 8 : Ledger Nat).insert ⟨⟨2, 3⟩, some 0⟩).2.regions,
      r.limits.intersection (⟨⟨1, 2⟩, some 0⟩ : Region Nat).limits = none) ∧
    (((Ledger.new ⟨0, 10⟩ 8 : Ledger Nat).insert ⟨⟨2, 3⟩, some 0⟩).2.insert
      ⟨⟨1, 2⟩, some 0⟩).1 = .ok () ∧
    (((Ledger.new ⟨0, 10⟩ 8 : Ledger Nat).insert ⟨⟨2, 3⟩, some 0⟩).2.insert
      ⟨⟨1, 2⟩, some 0⟩).2.regions.length = 2 :=
  ⟨Reachable.step _ _ (Reachable.new _ _ (by decide)), rfl, by decide, rfl, rfl⟩

/-- C6 (amended): on a reachable state, let `R` be the active region at
index `i` with the same tag as a valid, contained incoming region `X` that
intersects no active region.  If `R.end = X.start`, insert succeeds and
extends exactly `R` in place to the union (so the active count is
unchanged).  If instead `R.start = X.end`, the same holds provided `R` is
not the first active region and no equal-tag active region ends at
`X.start` (the merge-backward rule never fires for the first region, and
the merge-forward rule is preferred). -/
theorem insert_merge_adjacent {V : Type} [DecidableEq V]
    (st : Ledger V) (X R : Region V) (i : Nat)
    (h : Reachable st)
    (hget : st.regions.get? i = some R)
    (hval : R.value = X.value)
    (hX : X.limits.start < X.limits.stop)
    (hlo : st.limits.start ≤ X.limits.start)
    (hhi : X.limits.stop ≤ st.limits.stop)
    (hdisj : ∀ r ∈ st.regions, r.limits.intersection X.limits = none) :
    (R.limits.stop = X.limits.start →
      st.insert X
        = (.ok (), { st with regions := st.regions.set i ⟨⟨R.limits.start, X.limits.stop⟩, R.value⟩ })) ∧
    (R.limits.start = X.limits.stop → 0 < i →
      (∀ r ∈ st.regions, ¬(r.value = X.value ∧ r.limits.stop = X.limits.start)) →
      st.insert X
        = (.ok (), { st with regions := st.regions.set i ⟨⟨X.limits.start, R.limits.stop⟩, R.value⟩ })) := by
  obtain ⟨hwf, hlen, hreg, hord⟩ := reachable_inv h
  have g1 : ¬(X.limits.stop ≤ X.limits.start) := by omega
  have g2 : ¬(X.limits.start < st.limits.start ∨ st.limits.stop < X.limits.stop) := by
    omega
  constructor
  · intro hadj
    rw [Ledger.insert, if_neg g1, if_neg g2,
      mergeLoop_merge_prev_at X st.regions i R (fun r hr => (hreg r hr).1) hord
        hdisj hX hget hval hadj]
  · intro hadj hpos hnoprev
    rw [Ledger.insert, if_neg g1, if_neg g2,
      mergeLoop_merge_next_at X st.regions i R (fun r hr => (hreg r hr).1) hord
        hdisj hnoprev hget hpos hval hadj]

/-- C6 (amended, witness): inserting `[3, 5)` after the single region
`[2, 3)` with equal tag extends it in place to `[2, 5)`. -/
theorem insert_merge_adjacent_witness :
    ((Ledger.new ⟨0, 10⟩ 8 : Ledger Nat).insert ⟨⟨2, 3⟩, some 0⟩).2.insert
        ⟨⟨3, 5⟩, some 0⟩
      = (.ok (), { ((Ledger.new ⟨0, 10⟩ 8 : Ledger Nat).insert ⟨⟨2, 3⟩, some 0⟩).2 with regions := ((Ledger.new ⟨0, 10⟩ 8 : Ledger Nat).insert ⟨⟨2, 3⟩, some 0⟩).2.regions.set 0 ⟨⟨2, 5⟩, some 0⟩ }) :=
  (insert_merge_adjacent ((Ledger.new ⟨0, 10⟩ 8 : Ledger Nat).insert ⟨⟨2, 3⟩, some 0⟩).2
    ⟨⟨3, 5⟩, some 0⟩ ⟨⟨2, 3⟩, some 0⟩ 0
    (Reachable.step _ _ (Reachable.new _ _ (by decide)))
    (by rfl) rfl (by decide) (by decide) (by decide) (by decide)).1 rfl

/-- C7: a successful `insert` on a reachable state changes the limits of at
most one pre-existing active region: either exactly one region is extended
in place (prefix and suffix intact, tag unchanged, other regions untouched,
no further coalescing) — or the incoming region is appended and every
pre-existing region survives unchanged (the new list is a permutation of
the old list plus the incoming region).  Moreover the merge-forward rule is
preferred: whenever some active region carries the incoming tag and ends at
the incoming start, it is the (unique) region extended. -/
theorem insert_single_merge {V : Type} [DecidableEq V]
    (st : Ledger V) (X : Region V) (st' : Ledger V)
    (h : Reachable st) (hok : st.insert X = (.ok (), st')) :
    ((∃ l1 r r' l2, st.regions = l1 ++ r :: l2 ∧ st'.regions = l1 ++ r' :: l2 ∧
        r'.value = r.value ∧
        ((r.limits.stop = X.limits.start ∧ r'.limits = ⟨r.limits.start, X.limits.stop⟩) ∨
         (r.limits.start = X.limits.stop ∧ r'.limits = ⟨X.limits.start, r.limits.stop⟩))) ∨
      st'.regions.Perm (st.regions ++ [X])) ∧
    (∀ j rj, st.regions.get? j = some rj → rj.value = X.value →
      rj.limits.stop = X.limits.start →
      st'.regions = st.regions.set j ⟨⟨rj.limits.start, X.limits.stop⟩, rj.value⟩) := by
  obtain ⟨hwf, hlen, hreg, hord⟩ := reachable_inv h
  rw [Ledger.insert] at hok
  by_cases g1 : X.limits.stop ≤ X.limits.start
  · rw [if_pos g1] at hok
    exact absurd hok (by simp)
  rw [if_neg g1] at hok
  by_cases g2 : X.limits.start < st.limits.start ∨ st.limits.stop < X.limits.stop
  · rw [if_pos g2] at hok
    exact absurd hok (by simp)
  rw [if_neg g2] at hok
  have hX : X.limits.start < X.limits.stop := by omega
  cases hm : mergeLoop X st.regions with
  | overlap =>
    rw [hm] at hok
    exact absurd hok (by simp)
  | merged rs0 =>
    rw [hm] at hok
    cases hok
    have hdisj : ∀ r ∈ st.regions, r.limits.intersection X.limits = none :=
      mergeLoop_not_overlap_no_inter X st.regions (fun r hr => (hreg r hr).1) hord
        (by rw [hm]; simp)
    constructor
    · obtain ⟨l1, r, r', l2, he1, he2, hv', hvX, hc⟩ :=
        mergeLoop_merged_split X st.regions rs0 hm
      exact Or.inl ⟨l1, r, r', l2, he1, he2, hv', hc⟩
    · intro j rj hgetj hvalj hadjj
      have hpin := mergeLoop_merge_prev_at X st.regions j rj
        (fun r hr => (hreg r hr).1) hord hdisj hX hgetj hvalj hadjj
      rw [hm] at hpin
      cases hpin
      rfl
  | nomerge =>
    rw [hm] at hok
    by_cases hcap : st.regions.length < st.cap
    · rw [if_pos hcap] at hok
      cases hok
      constructor
      · exact Or.inr (sortRegions_perm _)
      · intro j rj hgetj hvalj hadjj
        exact absurd ⟨hvalj, hadjj⟩
          ((mergeLoop_nomerge_facts X st.regions hm rj (List.get?_mem hgetj)).2)
    · rw [if_neg hcap] at hok
      exact absurd hok (by simp)

/-- C7 (witness): the single-merge property instantiated on a fresh ledger
accepting its first region (the append alternative holds). -/
theorem insert_single_merge_witness :
    (∃ l1 r r' l2,
        (Ledger.new ⟨1, 16⟩ 8 : Ledger Nat).regions = l1 ++ r :: l2 ∧
        ((Ledger.new ⟨1, 16⟩ 8 : Ledger Nat).insert ⟨⟨4, 5⟩, some 0⟩).2.regions
          = l1 ++ r' :: l2 ∧
        r'.value = r.value ∧
        ((r.limits.stop = 4 ∧ r'.limits = ⟨r.limits.start, 5⟩) ∨
         (r.limits.start = 5 ∧ r'.limits = ⟨4, r.limits.stop⟩))) ∨
      ((Ledger.new ⟨1, 16⟩ 8 : Ledger Nat).insert ⟨⟨4, 5⟩, some 0⟩).2.regions.Perm
        ((Ledger.new ⟨1, 16⟩ 8 : Ledger Nat).regions ++ [⟨⟨4, 5⟩, some 0⟩]) :=
  (insert_single_merge (Ledger.new ⟨1, 16⟩ 8 : Ledger Nat) ⟨⟨4, 5⟩, some 0⟩
    ((Ledger.new ⟨1, 16⟩ 8 : Ledger Nat).insert ⟨⟨4, 5⟩, some 0⟩).2
    (Reachable.new _ _ (by decide)) (by rfl)).1

/-- C8: on a reachable state, `insert` returns `InvalidRegion` exactly when
the incoming range is empty/backwards or not contained in the limits
(checked first); for a valid contained range it returns `Overlap` exactly
when the range intersects some active region; for a valid, contained,
non-overlapping range with no adjacent same-tag merge partner it returns
`OutOfCapacity` exactly when all slots are in use, and succeeds when a slot
is free. -/
theorem insert_error_conditions {V : Type} [DecidableEq V]
    (st : Ledger V) (X : Region V) (h : Reachable st) :
    ((st.insert X).1 = .error .InvalidRegion ↔
      (X.limits.stop ≤ X.limits.start ∨ X.limits.start < st.limits.start ∨
        st.limits.stop < X.limits.stop)) ∧
    (¬(X.limits.stop ≤ X.limits.start ∨ X.limits.start < st.limits.start ∨
        st.limits.stop < X.limits.stop) →
      (((st.insert X).1 = .error .Overlap ↔
          ∃ r ∈ st.regions, (r.limits.intersection X.limits).isSome) ∧
        ((∀ r ∈ st.regions, r.limits.intersection X.limits = none) →
          (∀ r ∈ st.regions, ¬(r.value = X.value ∧
            (r.limits.stop = X.limits.start ∨ r.limits.start = X.limits.stop))) →
          (((st.insert X).1 = .error .OutOfCapacity ↔ st.cap ≤ st.regions.length) ∧
            (st.regions.length < st.cap → (st.insert X).1 = .ok ()))))) := by
  obtain ⟨hwf, hlen, hreg, hord⟩ := reachable_inv h
  by_cases g1 : X.limits.stop ≤ X.limits.start
  · constructor
    · rw [Ledger.insert, if_pos g1]
      exact ⟨fun _ => Or.inl g1, fun _ => rfl⟩
    · intro hg
      exact absurd (Or.inl g1) hg
  by_cases g2 : X.limits.start < st.limits.start ∨ st.limits.stop < X.limits.stop
  · constructor
    · rw [Ledger.insert, if_neg g1, if_pos g2]
      exact ⟨fun _ => Or.inr g2, fun _ => rfl⟩
    · intro hg
      exact absurd (Or.inr g2) hg
  have hgx : ¬(X.limits.stop ≤ X.limits.start ∨ X.limits.start < st.limits.start ∨
      st.limits.stop < X.limits.stop) := by
    rintro (hc | hc)
    · exact g1 hc
    · exact g2 hc
  constructor
  · rw [Ledger.insert, if_neg g1, if_neg g2]
    constructor
    · intro hres
      exfalso
      cases hm : mergeLoop X st.regions with
      | overlap => rw [hm] at hres; simp at hres
      | merged rs0 => rw [hm] at hres; simp at hres
      | nomerge =>
        rw [hm] at hres
        by_cases hcap : st.regions.length < st.cap
        · rw [if_pos hcap] at hres; simp at hres
        · rw [if_neg hcap] at hres; simp at hres
    · intro hres
      exact absurd hres hgx
  intro _
  constructor
  · rw [Ledger.insert, if_neg g1, if_neg g2]
    constructor
    · intro hres
      cases hm : mergeLoop X st.regions with
      | overlap => exact mergeLoop_overlap_mem X st.regions hm
      | merged rs0 => rw [hm] at hres; simp at hres
      | nomerge =>
        rw [hm] at hres
        by_cases hcap : st.regions.length < st.cap
        · rw [if_pos hcap] at hres; simp at hres
        · rw [if_neg hcap] at hres; simp at hres
    · intro hex
      rw [mergeLoop_overlap_of_mem X st.regions (fun r hr => (hreg r hr).1) hord hex]
  · intro hnoint hnopart
    have hnm : mergeLoop X st.regions = .nomerge :=
      mergeLoop_nomerge_of X st.regions hnoint
        (fun r hr hc => hnopart r hr ⟨hc.1, Or.inl hc.2⟩)
        (fun r hr hc => hnopart r hr ⟨hc.1, Or.inr hc.2⟩)
    rw [Ledger.insert, if_neg g1, if_neg g2, hnm]
    by_cases hcap : st.regions.length < st.cap
    · rw [if_pos hcap]
      refine ⟨⟨fun hc => by simp at hc, fun hc => absurd hc (by omega)⟩, fun _ => rfl⟩
    · rw [if_neg hcap]
      refine ⟨⟨fun _ => by omega, fun _ => rfl⟩, fun hlt => absurd hlt hcap⟩

/-- C8 (witness): the `InvalidRegion` characterization instantiated on a
fresh ledger with a range extending below the limits. -/
theorem insert_error_conditions_witness :
    (((Ledger.new ⟨1, 16⟩ 8 : Ledger Nat).insert ⟨⟨0, 2⟩, some 0⟩).1
        = .error .InvalidRegion ↔
      ((2 : Nat) ≤ 0 ∨ (0 : Nat) < 1 ∨ (16 : Nat) < 2)) :=
  (insert_error_conditions (Ledger.new ⟨1, 16⟩ 8 : Ledger Nat) ⟨⟨0, 2⟩, some 0⟩
    (Reachable.new _ _ (by decide))).1

/-- C10: a successful `insert` that merges (the active count is unchanged)
modifies only the limits of exactly one active region — extending its end
forward to the incoming end, or its start backward to the incoming start —
and leaves the prefix and suffix of the region list, every region's tag,
the ledger limits and the capacity unchanged. -/
theorem insert_merge_frame {V : Type} [DecidableEq V]
    (st : Ledger V) (X : Region V) (st' : Ledger V)
    (hok : st.insert X = (.ok (), st'))
    (hlen : st'.regions.length = st.regions.length) :
    st'.limits = st.limits ∧ st'.cap = st.cap ∧
    ∃ l1 r r' l2, st.regions = l1 ++ r :: l2 ∧ st'.regions = l1 ++ r' :: l2 ∧
      r'.value = r.value ∧
      ((r.limits.stop = X.limits.start ∧ r'.limits = ⟨r.limits.start, X.limits.stop⟩ ∧
        r.limits.stop < X.limits.stop) ∨
       (r.limits.start = X.limits.stop ∧ r'.limits = ⟨X.limits.start, r.limits.stop⟩ ∧
        X.limits.start < r.limits.start)) := by
  rw [Ledger.insert] at hok
  by_cases g1 : X.limits.stop ≤ X.limits.start
  · rw [if_pos g1] at hok
    exact absurd hok (by simp)
  rw [if_neg g1] at hok
  by_cases g2 : X.limits.start < st.limits.start ∨ st.limits.stop < X.limits.stop
  · rw [if_pos g2] at hok
    exact absurd hok (by simp)
  rw [if_neg g2] at hok
  have hX : X.limits.start < X.limits.stop := by omega
  cases hm : mergeLoop X st.regions with
  | overlap =>
    rw [hm] at hok
    exact absurd hok (by simp)
  | merged rs0 =>
    rw [hm] at hok
    cases hok
    obtain ⟨l1, r, r', l2, he1, he2, hv', hvX, hc⟩ :=
      mergeLoop_merged_split X st.regions rs0 hm
    refine ⟨rfl, rfl, l1, r, r', l2, he1, he2, hv', ?_⟩
    rcases hc with ⟨hadj, hlim⟩ | ⟨hadj, hlim⟩
    · exact Or.inl ⟨hadj, hlim, by omega⟩
    · exact Or.inr ⟨hadj, hlim, by omega⟩
  | nomerge =>
    rw [hm] at hok
    by_cases hcap : st.regions.length < st.cap
    · rw [if_pos hcap] at hok
      cases hok
      exfalso
      have := (sortRegions_perm (st.regions ++ [X])).length_eq
      simp only [List.length_append, List.length_singleton] at this
      simp only [this] at hlen
      omega
    · rw [if_neg hcap] at hok
      exact absurd hok (by simp)

/-- C10 (witness): the merge frame instantiated on the ledger holding
`[4, 5)` when inserting the touching `[5, 6)` with equal tag. -/
theorem insert_merge_frame_witness :
    (((Ledger.new ⟨1, 16⟩ 8 : Ledger Nat).insert ⟨⟨4, 5⟩, some 0⟩).2.insert
        ⟨⟨5, 6⟩, some 0⟩).2.limits
      = ((Ledger.new ⟨1, 16⟩ 8 : Ledger Nat).insert ⟨⟨4, 5⟩, some 0⟩).2.limits ∧
    (((Ledger.new ⟨1, 16⟩ 8 : Ledger Nat).insert ⟨⟨4, 5⟩, some 0⟩).2.insert
        ⟨⟨5, 6⟩, some 0⟩).2.cap
      = ((Ledger.new ⟨1, 16⟩ 8 : Ledger Nat).insert ⟨⟨4, 5⟩, some 0⟩).2.cap ∧
    ∃ l1 r r' l2,
      ((Ledger.new ⟨1, 16⟩ 8 : Ledger Nat).insert ⟨⟨4, 5⟩, some 0⟩).2.regions
        = l1 ++ r :: l2 ∧
      (((Ledger.new ⟨1, 16⟩ 8 : Ledger Nat).insert ⟨⟨4, 5⟩, some 0⟩).2.insert
        ⟨⟨5, 6⟩, some 0⟩).2.regions = l1 ++ r' :: l2 ∧
      r'.value = r.value ∧
      ((r.limits.stop = 5 ∧ r'.limits = ⟨r.limits.start, 6⟩ ∧ r.limits.stop < 6) ∨
       (r.limits.start = 6 ∧ r'.limits = ⟨5, r.limits.stop⟩ ∧ 5 < r.limits.start)) :=
  insert_merge_frame ((Ledger.new ⟨1, 16⟩ 8 : Ledger Nat).insert ⟨⟨4, 5⟩, some 0⟩).2
    ⟨⟨5, 6⟩, some 0⟩
    (((Ledger.new ⟨1, 16⟩ 8 : Ledger Nat).insert ⟨⟨4, 5⟩, some 0⟩).2.insert
      ⟨⟨5, 6⟩, some 0⟩).2
    (by rfl) (by rfl)

end MmLedger
